import Mathlib

/-!
Verification of the tiny-dnn graph/node execution core against its
specification.  The definitions below are shallow embeddings of the C++
sources: the `nodes` base container, the `sequential` and `graph`
containers (including `graph::construct`, the Kahn-style topological
sort), `nodes::label2vec`, the data-layout transposition
`reorder_for_layerwise_processing` / `normalize_out`, and the
`Conv2dGradOp::compute` backend dispatcher.  Node objects are identified
by natural-number ids; scalar values (`float_t`) are modelled as `Int`
since no arithmetic is performed by the embedded code itself.
-/

namespace TinyDnn

/-! ## Graph data model and `graph::construct` -/

/-- A computation graph: node ids are the naturals below `n`; `next v` is
the successor list reported by `v` (from `node::next_nodes()`), `prev v`
the predecessor list (from `node::prev_nodes()`). -/
structure Graph where
  n : Nat
  next : Nat → List Nat
  prev : Nat → List Nat

/-- Directed edge of a graph: `v` occurs in the successor list of `u`. -/
def Edge (g : Graph) (u v : Nat) : Prop := v ∈ g.next u

/-- A graph is acyclic when no node lies on a nonempty directed cycle. -/
def Acyclic (g : Graph) : Prop := ∀ v, ¬ Relation.TransGen (Edge g) v v

/-- Reachability from the declared input nodes. -/
inductive Reach (g : Graph) (inputs : List Nat) : Nat → Prop where
  | base : ∀ v, v ∈ inputs → Reach g inputs v
  | step : ∀ u v, Reach g inputs u → Edge g u v → Reach g inputs v

/-- The `next`/`prev` adjacency lists are duplicate-free, stay inside the
node universe and are mutually consistent; this is what it means for the
`node*` pointer lists to describe one directed graph. -/
def Consistent (g : Graph) : Prop :=
  (∀ u, u < g.n → (g.next u).Nodup ∧ ∀ v ∈ g.next u, v < g.n ∧ u ∈ g.prev v) ∧
  (∀ v, v < g.n → (g.prev v).Nodup ∧ ∀ u ∈ g.prev v, u < g.n ∧ v ∈ g.next u)

/-- The declared input list is duplicate-free and consists of source
nodes (nodes with an empty predecessor list). -/
def GoodInputs (g : Graph) (inputs : List Nat) : Prop :=
  inputs.Nodup ∧ ∀ i ∈ inputs, i < g.n ∧ g.prev i = []

/-- Embedding of `graph::find_index`: index of the first occurrence of
`target` in `nodes`, `none` when absent (the C++ code throws
`nn_error("invalid connection")` in that case). -/
def find_index (nodes : List Nat) (target : Nat) : Option Nat :=
  match nodes with
  | [] => none
  | x :: rest => if x = target then some 0 else (find_index rest target).map (· + 1)

/-- The effective `removed_edge` bit vector of node `v`: the stored map
entry when present, otherwise the all-zero vector the C++ code would
create (`std::vector of uint8_t(prev_nodes().size(), 0)`). -/
def bits (g : Graph) (removed : Nat → Option (List Bool)) (v : Nat) : List Bool :=
  match removed v with
  | none => List.replicate (g.prev v).length false
  | some r => r

/-- Inner loop of `graph::construct`: process the successor list of the
node `curr` that was just appended to the sorted output.  For each
successor its `removed_edge` entry is created on demand, the bit at
`find_index(prev_nodes, curr)` is set, and the successor is pushed onto
the frontier stack once all of its bits are set.  Returns `none` when
`find_index` fails (the "invalid connection" error). -/
def processSuccs (g : Graph) (curr : Nat) :
    List Nat → List Nat → (Nat → Option (List Bool)) →
    Option (List Nat × (Nat → Option (List Bool)))
  | [], stack, removed => some (stack, removed)
  | s :: rest, stack, removed =>
    match find_index (g.prev s) curr with
    | none => none
    | some idx =>
      processSuccs g curr rest
        (if ((bits g removed s).set idx true).all (fun b => b) then s :: stack
         else stack)
        (fun x => if x = s then some ((bits g removed s).set idx true)
                  else removed x)

/-- Result of the topological-sort loop.  `outOfFuel` marks a run of the
C++ `while` loop that has not terminated within the given step budget. -/
inductive CResult where
  | ok (sorted : List Nat)
  | invalidConnection
  | outOfFuel
deriving DecidableEq

/-- The `while (!input_nodes.empty())` loop of `graph::construct`,
step-indexed by `fuel`.  The C++ frontier is a vector used as a stack
(`back`/`pop_back`/`push_back`); it is modelled by a list whose head is
the vector's back.  Each iteration pops the top node, appends it to the
sorted order and processes its successor list. -/
def constructLoop (g : Graph) :
    Nat → List Nat → List Nat → (Nat → Option (List Bool)) → CResult
  | 0, _, _, _ => .outOfFuel
  | fuel+1, stack, sorted, removed =>
    match stack with
    | [] => .ok sorted
    | curr :: rest =>
      match processSuccs g curr (g.next curr) rest removed with
      | none => .invalidConnection
      | some (stack', removed') =>
        constructLoop g fuel stack' (sorted ++ [curr]) removed'

/-- Embedding of the sorting phase of `graph::construct(input, output)`:
the frontier starts as a copy of the declared input list (so its stack
top is the last declared input) and the `removed_edge` map starts empty. -/
def graph_construct (g : Graph) (inputs : List Nat) (fuel : Nat) : CResult :=
  constructLoop g fuel inputs.reverse [] (fun _ => none)

/-- State of a graph container after construction: the stored execution
order, the declared input/output layer lists, and each layer's
`initialized` flag. -/
structure NetState where
  nodes_ : List Nat
  input_layers_ : List Nat
  output_layers_ : List Nat
  initFlag : Nat → Bool

/-- Modelled from the spec: `layer::setup(reset_weight)` (declared in
`layer.h`, not part of the provided sources) allocates and initializes
the layer's weight storage and leaves the layer initialized; with
`reset_weight = false` existing weight values are preserved.  Only the
`initialized` flag is modelled here.  `nodes::setup` delegates to every
stored node, which this function performs in one step. -/
def nodes_setup (_reset_weight : Bool) (st : NetState) : NetState :=
  { st with initFlag := fun v => if v ∈ st.nodes_ then true else st.initFlag v }

/-- Full effect of `graph::construct`: on success the sorted order is
appended to `nodes_`, the declared input/output lists are recorded, and
`setup(false)` is invoked on the stored nodes. -/
def graph_construct_full (g : Graph) (inputs outputs : List Nat) (fuel : Nat)
    (st : NetState) : Option NetState :=
  match graph_construct g inputs fuel with
  | .ok sorted =>
    some (nodes_setup false
      { st with
        nodes_ := st.nodes_ ++ sorted
        input_layers_ := inputs
        output_layers_ := outputs })
  | _ => none

/-! ### Invariants of the topological-sort loop -/

/-- Every effective bit vector has the length of the node's predecessor
list. -/
def BitsLen (g : Graph) (removed : Nat → Option (List Bool)) : Prop :=
  ∀ v, (bits g removed v).length = (g.prev v).length

/-- Bit `k` of node `v` is set exactly when the `k`-th predecessor of
`v` has been appended to `sorted` (loop-head version). -/
def BitInv (g : Graph) (removed : Nat → Option (List Bool)) (sorted : List Nat) : Prop :=
  ∀ v, v < g.n → ∀ k, ∀ h : k < (g.prev v).length,
    ((bits g removed v).getD k false = true ↔ (g.prev v).get ⟨k, h⟩ ∈ sorted)

/-- Mid-step version of `BitInv`, while `curr` is being processed: bit
`k` of `v` is additionally set when the `k`-th predecessor is `curr`
itself and the edge to `v` is among the successors already handled
(listed in `done`). -/
def BitInvMid (g : Graph) (removed : Nat → Option (List Bool)) (sorted : List Nat)
    (curr : Nat) (done : List Nat) : Prop :=
  ∀ v, v < g.n → ∀ k, ∀ h : k < (g.prev v).length,
    ((bits g removed v).getD k false = true ↔
      ((g.prev v).get ⟨k, h⟩ ∈ sorted ∨
        ((g.prev v).get ⟨k, h⟩ = curr ∧ v ∈ done)))

/-- All bits of node `v` are set. -/
def AllBitsTrue (g : Graph) (removed : Nat → Option (List Bool)) (v : Nat) : Prop :=
  ∀ k, k < (bits g removed v).length → (bits g removed v).getD k false = true

/-- Every frontier node is a declared input or has all bits set. -/
def StackOK (g : Graph) (inputs : List Nat) (removed : Nat → Option (List Bool))
    (stack : List Nat) : Prop :=
  ∀ v ∈ stack, v ∈ inputs ∨ AllBitsTrue g removed v

/-- Every predecessor of a sorted node occurs in `sorted` strictly
before it. -/
def OrdInv (g : Graph) (sorted : List Nat) : Prop :=
  ∀ v ∈ sorted, ∀ u ∈ g.prev v,
    ∃ i j, i < j ∧ sorted.get? i = some u ∧ sorted.get? j = some v

/-- The full loop invariant of `graph::construct`'s sorting loop. -/
def LoopInv (g : Graph) (inputs : List Nat) (stack sorted : List Nat)
    (removed : Nat → Option (List Bool)) : Prop :=
  BitsLen g removed ∧
  BitInv g removed sorted ∧
  StackOK g inputs removed stack ∧
  (sorted ++ stack).Nodup ∧
  (∀ x ∈ sorted, x < g.n) ∧
  OrdInv g sorted ∧
  (∀ x ∈ sorted ++ stack, Reach g inputs x) ∧
  (∀ v, v < g.n → Reach g inputs v → (∀ u ∈ g.prev v, u ∈ sorted) →
    v ∈ sorted ∨ v ∈ stack)

/-! ## Tensors and the layout transposition -/

/-- `vec_t`: one feature vector. -/
abbrev Vec := List Int

/-- `tensor_t`: a vector of feature vectors. -/
abbrev Tensor := List Vec

/-- Collect a list of optional values, failing if any is absent. -/
def seqOpt {α : Type} : List (Option α) → Option (List α)
  | [] => some []
  | o :: rest =>
    match o, seqOpt rest with
    | some a, some l => some (a :: l)
    | _, _ => none

/-- One output row of the transposition: `output[channel][sample] =
input[sample][channel]` for every sample, with the element access
modelled partially (out-of-range indexing has no defined result). -/
def collectChannel (input : List Tensor) (c : Nat) : Option Tensor :=
  seqOpt ((List.range input.length).map
    (fun s => (input.get? s).bind (fun row => row.get? c)))

/-- Embedding of `nodes::reorder_for_layerwise_processing`: transpose a
batch from `[sample][channel][feature]` to `[channel][sample][feature]`.
The C++ code reads `input[0].size()` with no emptiness guard, so an
empty batch has no defined result (`none`). -/
def reorder_for_layerwise_processing (input : List Tensor) : Option (List Tensor) :=
  match input with
  | [] => none
  | s0 :: _ =>
    seqOpt ((List.range s0.length).map (fun c => collectChannel input c))

/-- The pure transposition the reorder computes on an in-range batch. -/
def transposeBatch (cc : Nat) (input : List Tensor) : List Tensor :=
  (List.range cc).map (fun c =>
    (List.range input.length).map (fun s => (input.getD s []).getD c []))

/-- Embedding of `sequential::normalize_out`: turn the single-channel
`[channel][sample][feature]` output back into `[sample][channel][feature]`
with one channel per sample.  Reads `out[0]` with no emptiness guard. -/
def normalize_out (out : List Tensor) : Option (List Tensor) :=
  match out with
  | [] => none
  | o0 :: _ => some ((List.range o0.length).map (fun sample => [o0.getD sample []]))

/-- Entry checks of `graph::forward`: read `in_data[0].size()` (no
emptiness guard, hence `none` on an empty batch), compare it against the
number of declared input layers, then reorder the batch. -/
def graph_forward_entry (nInputs : Nat) (in_data : List Tensor) :
    Option (Except String (List Tensor)) :=
  match in_data with
  | [] => none
  | first :: _ =>
    if first.length = nInputs then
      (reorder_for_layerwise_processing in_data).map Except.ok
    else some (Except.error "input size mismatch")

/-- Entry checks of `graph::backward`, mirroring `graph_forward_entry`
for the output-gradient batch and the declared output layers. -/
def graph_backward_entry (nOutputs : Nat) (out_grad : List Tensor) :
    Option (Except String (List Tensor)) :=
  match out_grad with
  | [] => none
  | first :: _ =>
    if first.length = nOutputs then
      (reorder_for_layerwise_processing out_grad).map Except.ok
    else some (Except.error "input size mismatch")

/-! ## The forward node loops of the two containers -/

/-- Per-layer data consulted by the container loops: the `initialized`
flag and the human-readable type tag `layer_type()`. -/
structure LayerEnv where
  initFlag : Nat → Bool
  ltype : Nat → String

/-- Node loop of `sequential::forward`: each stored node's `forward()` is
invoked only after checking `initialized()`; otherwise the loop throws
`nn_error("Layer " + layer_type() + " not initialized.")`.  Returns the
trace of nodes whose `forward()` was reached plus the error, if any. -/
def sequential_forward_each (env : LayerEnv) : List Nat → List Nat × Option String
  | [] => ([], none)
  | l :: rest =>
    if env.initFlag l then
      let r := sequential_forward_each env rest
      (l :: r.1, r.2)
    else ([], some ("Layer " ++ env.ltype l ++ " not initialized."))

/-- Node loop of `graph::forward`: every stored node's `forward()` is
invoked unconditionally, with no `initialized()` check and no error. -/
def graph_forward_each (_env : LayerEnv) : List Nat → List Nat × Option String
  | [] => ([], none)
  | l :: rest =>
    let r := graph_forward_each _env rest
    (l :: r.1, r.2)

/-! ## `nodes::label2vec` -/

/-- Static data of one layer as used by the `nodes` base container:
`out_data_size()` and the two ends of `out_value_range()`.  The value
range is an attribute of the concrete layer class (declared in
`layer.h`, outside the provided sources); modelled from the spec as two
scalar attributes of the node. -/
structure LayerMeta where
  outDataSize : Nat
  outRangeMin : Int
  outRangeMax : Int

/-- `nodes::out_data_size`: output dimension of the last stored node. -/
def out_data_size (ns : List LayerMeta) : Nat :=
  (ns.getLastD ⟨0, 0, 0⟩).outDataSize

/-- `nodes::target_value_min`: `out_value_range().first` of the last node. -/
def target_value_min (ns : List LayerMeta) : Int :=
  (ns.getLastD ⟨0, 0, 0⟩).outRangeMin

/-- `nodes::target_value_max`: `out_value_range().second` of the last node. -/
def target_value_max (ns : List LayerMeta) : Int :=
  (ns.getLastD ⟨0, 0, 0⟩).outRangeMax

/-- Loop body of `nodes::label2vec`: for each label append a vector of
`outdim` copies of the minimum value with the maximum value at the label
index.  The `assert(t[i] < outdim)` guard is modelled as failure
(`none`): past it the C++ write would be out of range. -/
def label2vecAux (outdim : Nat) (mn mx : Int) : List Nat → List Vec → Option (List Vec)
  | [], acc => some acc
  | lb :: rest, acc =>
    if lb < outdim then
      label2vecAux outdim mn mx rest (acc ++ [(List.replicate outdim mn).set lb mx])
    else none

/-- Embedding of `nodes::label2vec(t, num, vec)`: appends one target
vector per label to the caller-supplied vector list. -/
def label2vec (ns : List LayerMeta) (t : List Nat) (vec : List Vec) : Option (List Vec) :=
  label2vecAux (out_data_size ns) (target_value_min ns) (target_value_max ns) t vec

/-! ## `sequential::add` and `sequential::check_connectivity` -/

/-- Port shape of a layer boundary (a dimension list). -/
abbrev Shape := List Nat

/-- Static data of a layer in the sequential container: declared input
and output port shapes. -/
structure SeqLayer where
  inShape : Shape
  outShape : Shape
deriving DecidableEq

/-- Errors of the sequential construction path.  `shapeMismatch` is the
connection error raised while wiring two layers whose adjacent port
shapes differ; `notConnected` stands for the `nn_error("")` thrown by
`check_connectivity` when two adjacent nodes do not share an edge. -/
inductive SeqError where
  | shapeMismatch (expected actual : Shape)
  | notConnected
deriving DecidableEq

/-- State of a sequential container: stored layers in order, and for
each layer position the index of the layer whose output edge feeds its
input port 0 (`inputs()[0]`); a layer's own output edge is identified
with its position. -/
structure SeqState where
  layers : List SeqLayer
  inEdge : Nat → Option Nat

/-- Modelled from the spec: `connect(head, tail, 0, 0)` (declared in
`layer.h`, not part of the provided sources) wires the head's output
port 0 to the tail's input port 0 and validates that the two declared
port shapes match, raising a fatal connection error carrying the
expected (head output) and actual (tail input) shapes on mismatch. -/
def connectModel (st : SeqState) (headIdx tailIdx : Nat) : Except SeqError SeqState :=
  let hOut := (st.layers.getD headIdx ⟨[], []⟩).outShape
  let tIn := (st.layers.getD tailIdx ⟨[], []⟩).inShape
  let st' := { st with inEdge := fun i => if i = tailIdx then some headIdx else st.inEdge i }
  if hOut = tIn then Except.ok st' else Except.error (SeqError.shapeMismatch hOut tIn)

/-- Embedding of `sequential::check_connectivity`: for every adjacent
pair, the predecessor's output edge must be the very edge feeding the
successor's input port 0; otherwise `nn_error("")` is thrown. -/
def check_connectivity (st : SeqState) : Except SeqError Unit :=
  if (List.range (st.layers.length - 1)).all
      (fun i => st.inEdge (i + 1) == some i) then
    Except.ok ()
  else Except.error SeqError.notConnected

/-- Embedding of `sequential::add`: push the new layer; unless it is the
first one, connect the previous tail to it; then run
`check_connectivity` over the whole chain. -/
def sequential_add (st : SeqState) (l : SeqLayer) : Except SeqError SeqState :=
  let st1 : SeqState := { st with layers := st.layers ++ [l] }
  if st1.layers.length = 1 then
    (check_connectivity st1).map (fun _ => st1)
  else do
    let st2 ← connectModel st1 (st1.layers.length - 2) (st1.layers.length - 1)
    let _ ← check_connectivity st2
    pure st2

/-- Invariant of a sequential container built by successful `add` calls:
every adjacent pair is wired through a shared edge and has matching port
shapes. -/
def SeqWellFormed (st : SeqState) : Prop :=
  ∀ i, i + 1 < st.layers.length →
    st.inEdge (i + 1) = some i ∧
    (st.layers.getD i ⟨[], []⟩).outShape = (st.layers.getD (i + 1) ⟨[], []⟩).inShape

/-! ## `Conv2dGradOp::compute` -/

/-- The `backend_t` engine tags (declared in `backend.h`, outside the
provided sources; modelled from the spec's enumerated backend selector
and the dispatcher's two supported cases). -/
inductive backend_t where
  | tiny_dnn
  | nnpack
  | libdnn
  | avx
  | opencl
deriving DecidableEq

/-- Modelled from the spec: `to_string(backend_t)` yields the engine's
name, used to build the "Not supported engine" message. -/
def backendToString : backend_t → String
  | .tiny_dnn => "tiny_dnn"
  | .nnpack => "nnpack"
  | .libdnn => "libdnn"
  | .avx => "avx"
  | .opencl => "opencl"

/-- Padding policy of the kernel-parameter descriptor. -/
inductive padding where
  | valid
  | same
deriving DecidableEq

/-- The part of the kernel-parameter descriptor `compute` consults. -/
structure ConvParams where
  pad_type : padding

/-- The buffers wired into one `Conv2dGradOp::compute` call: the forward
input `prev_out`, the weights `W`, the gradient accumulators `dW` and
`db`, the propagated input gradient `prev_delta` and the incoming
gradient `curr_delta`.  They alias the caller's storage, so the call's
effect is a new buffer state. -/
structure KernelCtx where
  prev_out : Tensor
  W : Vec
  dW : Tensor
  db : Tensor
  prev_delta : Tensor
  curr_delta : Tensor
deriving DecidableEq

/-- Modelled from the spec: `fill_tensor(t, v)` (from `util.h`, outside
the provided sources) overwrites every element of the tensor with `v`,
preserving its shape. -/
def fill_tensor (t : Tensor) (v : Int) : Tensor :=
  t.map (fun row => row.map (fun _ => v))

/-- The buffer state handed to the selected backend kernel: `prev_delta`
zero-initialized, everything else exactly as supplied by the caller. -/
def dispatchInput (ctx : KernelCtx) : KernelCtx :=
  { ctx with prev_delta := fill_tensor ctx.prev_delta 0 }

/-- The unpadding step after dispatch: with `padding::same` the computed
`prev_delta` is cropped via `copy_and_unpad_delta` (a `Conv2d` helper
outside the provided sources, taken as an abstract function of the two
tensors it receives). -/
def applyUnpad (unpad : Tensor → Tensor → Tensor) (params : ConvParams)
    (ctx : KernelCtx) : KernelCtx :=
  if params.pad_type = padding.same then
    { ctx with prev_delta := unpad ctx.prev_out ctx.prev_delta }
  else ctx

/-- Embedding of `Conv2dGradOp::compute`.  The backend kernels
(`conv2d_op_custom`, `conv2d_grad_op_avx`, outside the provided sources)
are abstract buffer transformers.  On an unsupported engine the call
fails with the "Not supported engine" message; the error carries the
buffer state at the throw point, after the unconditional zero fill of
`prev_delta`. -/
def Conv2dGradOp_compute (kCustom kAvx : KernelCtx → KernelCtx)
    (unpad : Tensor → Tensor → Tensor) (params : ConvParams)
    (engine : backend_t) (ctx : KernelCtx) :
    Except (String × KernelCtx) KernelCtx :=
  let ctx1 := dispatchInput ctx
  match engine with
  | .tiny_dnn => Except.ok (applyUnpad unpad params (kCustom ctx1))
  | .avx => Except.ok (applyUnpad unpad params (kAvx ctx1))
  | e => Except.error ("Not supported engine: " ++ backendToString e, ctx1)

/-- Elementwise sum of two tensors (for stating the accumulation
contract of the gradient buffers). -/
def tensorAdd (a b : Tensor) : Tensor :=
  a.zipWith (fun ra rb => ra.zipWith (· + ·) rb) b

/-- Modelled from the spec: a backend gradient kernel accumulates weight
and bias gradients on top of the supplied buffers and overwrites the
propagated input gradient. -/
def accumKernel (fdW fdb fpd : KernelCtx → Tensor) (c : KernelCtx) : KernelCtx :=
  { c with
    dW := tensorAdd c.dW (fdW c)
    db := tensorAdd c.db (fdb c)
    prev_delta := fpd c }

/-! ## Concrete instances used to evaluate the definitions -/

/-- A concrete buffer state with a nonzero `prev_delta`. -/
def ctxEx : KernelCtx := ⟨[[1]], [2], [[3]], [[4]], [[5]], [[6]]⟩

/-- An environment in which no layer is initialized. -/
def envU : LayerEnv := ⟨fun _ => false, fun _ => "conv"⟩

/-- An environment in which only layer 0 is initialized. -/
def envEx2 : LayerEnv := ⟨fun v => v == 0, fun _ => "fc"⟩

/-- A one-layer sequential container (output port shape `[3]`). -/
def st0 : SeqState := ⟨[⟨[2], [3]⟩], fun _ => none⟩

/-- A one-node container whose last layer has output dimension 3 and
output value range `[-1, 1]`. -/
def nsEx : List LayerMeta := [⟨3, -1, 1⟩]

/-- Two-node graph with edge `0 → 1`, declaring both `0` and the
non-source node `1` as inputs. -/
def gEx : Graph :=
  ⟨2, fun v => if v = 0 then [1] else [], fun v => if v = 1 then [0] else []⟩

/-- One isolated node, declared as the only input. -/
def gW : Graph := ⟨1, fun _ => [], fun _ => []⟩

/-- Two nodes with `1` in the successor list of `0` but an empty
predecessor list at `1` (corrupted neighbor pointers). -/
def gBad : Graph := ⟨2, fun v => if v = 0 then [1] else [], fun _ => []⟩

/-- A single node with a self-loop, declared as an input. -/
def loopG : Graph := ⟨1, fun _ => [0], fun _ => [0]⟩

/-- An empty container state. -/
def stEx : NetState := ⟨[], [], [], fun _ => false⟩

end TinyDnn

namespace TinyDnn

/-! ## Claims about `Conv2dGradOp::compute` -/

/-- Claim C6: for both supported engine tags and every parameter
descriptor, `compute` hands the backend a buffer state whose
`prev_delta` has been zero-initialized while `dW` and `db` (and all
read-only inputs) are exactly the caller's buffers; a backend that
accumulates increments therefore leaves `dW`/`db` equal to the caller's
contents plus its own accumulation. -/
theorem conv2d_grad_dispatch_buffers (kCustom kAvx : KernelCtx → KernelCtx)
    (unpad : Tensor → Tensor → Tensor) (params : ConvParams) (ctx : KernelCtx) :
    Conv2dGradOp_compute kCustom kAvx unpad params backend_t.tiny_dnn ctx
      = Except.ok (applyUnpad unpad params (kCustom (dispatchInput ctx))) ∧
    Conv2dGradOp_compute kCustom kAvx unpad params backend_t.avx ctx
      = Except.ok (applyUnpad unpad params (kAvx (dispatchInput ctx))) ∧
    (dispatchInput ctx).dW = ctx.dW ∧
    (dispatchInput ctx).db = ctx.db ∧
    (dispatchInput ctx).prev_out = ctx.prev_out ∧
    (dispatchInput ctx).W = ctx.W ∧
    (dispatchInput ctx).curr_delta = ctx.curr_delta ∧
    (dispatchInput ctx).prev_delta = fill_tensor ctx.prev_delta 0 ∧
    (∀ fdW fdb fpd : KernelCtx → Tensor,
      (applyUnpad unpad params (accumKernel fdW fdb fpd (dispatchInput ctx))).dW
          = tensorAdd ctx.dW (fdW (dispatchInput ctx)) ∧
      (applyUnpad unpad params (accumKernel fdW fdb fpd (dispatchInput ctx))).db
          = tensorAdd ctx.db (fdb (dispatchInput ctx))) := by
  refine ⟨rfl, rfl, rfl, rfl, rfl, rfl, rfl, rfl, ?_⟩
  intro fdW fdb fpd
  unfold applyUnpad
  by_cases h : params.pad_type = padding.same <;> simp [h, accumKernel, dispatchInput]

/-- Claim C2 (amended): for every engine tag other than `tiny_dnn` and
`avx`, `compute` fails with the "Not supported engine" message naming
the engine; at the throw point `dW` and `db` (and the read-only inputs)
are untouched, but `prev_delta` has already been overwritten with
zeros by the unconditional pre-dispatch initialization. -/
theorem conv2d_grad_unsupported_engine (kCustom kAvx : KernelCtx → KernelCtx)
    (unpad : Tensor → Tensor → Tensor) (params : ConvParams)
    (engine : backend_t) (ctx : KernelCtx)
    (h1 : engine ≠ backend_t.tiny_dnn) (h2 : engine ≠ backend_t.avx) :
    Conv2dGradOp_compute kCustom kAvx unpad params engine ctx
      = Except.error ("Not supported engine: " ++ backendToString engine, dispatchInput ctx) ∧
    (dispatchInput ctx).dW = ctx.dW ∧
    (dispatchInput ctx).db = ctx.db ∧
    (dispatchInput ctx).prev_out = ctx.prev_out ∧
    (dispatchInput ctx).W = ctx.W ∧
    (dispatchInput ctx).curr_delta = ctx.curr_delta ∧
    (dispatchInput ctx).prev_delta = fill_tensor ctx.prev_delta 0 := by
  cases engine with
  | tiny_dnn => exact absurd rfl h1
  | avx => exact absurd rfl h2
  | nnpack => exact ⟨rfl, rfl, rfl, rfl, rfl, rfl, rfl⟩
  | libdnn => exact ⟨rfl, rfl, rfl, rfl, rfl, rfl, rfl⟩
  | opencl => exact ⟨rfl, rfl, rfl, rfl, rfl, rfl, rfl⟩

/-- Witness for the amended claim C2 at a concrete engine and buffer
state. -/
theorem conv2d_grad_unsupported_engine_witness :
    Conv2dGradOp_compute id id (fun _ d => d) ⟨padding.valid⟩ backend_t.opencl ctxEx
      = Except.error ("Not supported engine: " ++ backendToString backend_t.opencl,
          dispatchInput ctxEx) ∧
    (dispatchInput ctxEx).dW = ctxEx.dW ∧
    (dispatchInput ctxEx).db = ctxEx.db ∧
    (dispatchInput ctxEx).prev_out = ctxEx.prev_out ∧
    (dispatchInput ctxEx).W = ctxEx.W ∧
    (dispatchInput ctxEx).curr_delta = ctxEx.curr_delta ∧
    (dispatchInput ctxEx).prev_delta = fill_tensor ctxEx.prev_delta 0 :=
  conv2d_grad_unsupported_engine id id (fun _ d => d) ⟨padding.valid⟩
    backend_t.opencl ctxEx (by decide) (by decide)

/-- Counterexample to claim C2 as stated: on the unsupported `nnpack`
engine the failure is raised only after `prev_delta` (originally
`[[5]]`) has been overwritten with zeros, so a gradient buffer has been
written when the error is thrown. -/
theorem conv2d_grad_unsupported_engine_writes :
    Conv2dGradOp_compute id id (fun _ d => d) ⟨padding.valid⟩ backend_t.nnpack ctxEx
      = Except.error ("Not supported engine: nnpack", dispatchInput ctxEx) ∧
    ctxEx.prev_delta = [[5]] ∧
    (dispatchInput ctxEx).prev_delta = [[0]] ∧
    (dispatchInput ctxEx).prev_delta ≠ ctxEx.prev_delta := by
  exact ⟨rfl, rfl, rfl, by decide⟩

/-! ## Claims about the forward node loops (initialization guard) -/

/-- Claim C3 (amended): the node loop of `sequential::forward` reaches a
node's `forward()` only when that node is initialized, succeeds exactly
when every node is initialized, and on any uninitialized node fails
with the "not initialized" error naming an uninitialized node's type
tag; the node loop of `graph::forward` instead invokes every node's
`forward()` unconditionally and never raises this error. -/
theorem sequential_forward_initialized_guard (env : LayerEnv) (ls : List Nat) :
    (∀ v ∈ (sequential_forward_each env ls).1, env.initFlag v = true) ∧
    ((sequential_forward_each env ls).2 = none ↔ ∀ v ∈ ls, env.initFlag v = true) ∧
    (∀ l ∈ ls, env.initFlag l = false →
      ∃ l0 ∈ ls, env.initFlag l0 = false ∧
        (sequential_forward_each env ls).2
          = some ("Layer " ++ env.ltype l0 ++ " not initialized.")) ∧
    (graph_forward_each env ls).1 = ls ∧
    (graph_forward_each env ls).2 = none := by
  induction ls with
  | nil =>
    simp [sequential_forward_each, graph_forward_each]
  | cons l rest ih =>
    obtain ⟨ih1, ih2, ih3, ih4, ih5⟩ := ih
    by_cases h : env.initFlag l
    · refine ⟨?_, ?_, ?_, ?_, ?_⟩
      · intro v hv
        simp only [sequential_forward_each, h, if_true, List.mem_cons] at hv
        rcases hv with rfl | hv
        · exact h
        · exact ih1 v hv
      · simp only [sequential_forward_each, h, if_true, List.mem_cons]
        constructor
        · intro hnone v hv
          rcases hv with rfl | hv
          · exact h
          · exact ih2.mp hnone v hv
        · intro hall
          exact ih2.mpr (fun v hv => hall v (Or.inr hv))
      · intro l2 hl2 hflag
        rcases List.mem_cons.mp hl2 with rfl | hl2
        · exact absurd h (by simp [hflag])
        · obtain ⟨l0, hl0, hf0, herr⟩ := ih3 l2 hl2 hflag
          exact ⟨l0, List.mem_cons_of_mem _ hl0, hf0, by
            simpa [sequential_forward_each, h] using herr⟩
      · simp [graph_forward_each, ih4]
      · simp [graph_forward_each, ih5]
    · have h' : env.initFlag l = false := by simpa using h
      refine ⟨?_, ?_, ?_, ?_, ?_⟩
      · intro v hv
        simp [sequential_forward_each, h'] at hv
      · constructor
        · intro hnone
          exfalso
          simp [sequential_forward_each, h'] at hnone
        · intro hall
          exact absurd (hall l (List.mem_cons_self _ _)) (by simp [h'])
      · intro l2 _ _
        exact ⟨l, List.mem_cons_self _ _, h', by simp [sequential_forward_each, h']⟩
      · simp [graph_forward_each, ih4]
      · simp [graph_forward_each, ih5]

/-- Witness for the amended claim C3: in a two-node sequential chain
whose second node is uninitialized, the loop reports the error naming
an uninitialized layer's type tag. -/
theorem sequential_forward_initialized_guard_witness :
    ∃ l0 ∈ [0, 1], envEx2.initFlag l0 = false ∧
      (sequential_forward_each envEx2 [0, 1]).2
        = some ("Layer " ++ envEx2.ltype l0 ++ " not initialized.") :=
  (sequential_forward_initialized_guard envEx2 [0, 1]).2.2.1 1 (by decide) (by decide)

/-- Counterexample to claim C3 as stated: the general graph container's
node loop executes node 0 (its trace is `[0]`, with no error) although
node 0 is not initialized. -/
theorem graph_forward_executes_uninitialized :
    envU.initFlag 0 = false ∧ graph_forward_each envU [0] = ([0], none) :=
  ⟨rfl, rfl⟩

/-! ## Claims about `nodes::label2vec` -/

theorem label2vecAux_ok (outdim : Nat) (mn mx : Int) :
    ∀ (t : List Nat) (acc : List Vec), (∀ lb ∈ t, lb < outdim) →
      label2vecAux outdim mn mx t acc
        = some (acc ++ t.map (fun lb => (List.replicate outdim mn).set lb mx)) := by
  intro t
  induction t with
  | nil => intro acc _; simp [label2vecAux]
  | cons lb rest ih =>
    intro acc hall
    have hlb : lb < outdim := hall lb (List.mem_cons_self _ _)
    simp only [label2vecAux, if_pos hlb]
    rw [ih _ (fun x hx => hall x (List.mem_cons_of_mem _ hx))]
    simp

theorem label2vecAux_err (outdim : Nat) (mn mx : Int) :
    ∀ (t : List Nat) (acc : List Vec), (∃ lb ∈ t, outdim ≤ lb) →
      label2vecAux outdim mn mx t acc = none := by
  intro t
  induction t with
  | nil => intro acc h; simp at h
  | cons lb rest ih =>
    rintro acc ⟨b, hb, hble⟩
    rcases List.mem_cons.mp hb with rfl | hb
    · simp [label2vecAux, Nat.not_lt.mpr hble]
    · by_cases hlb : lb < outdim
      · simp only [label2vecAux, if_pos hlb]
        exact ih _ ⟨b, hb, hble⟩
      · simp [label2vecAux, hlb]

theorem replicate_set_getD (outdim : Nat) (mn mx : Int) (lb j : Nat)
    (hj : j < outdim) :
    ((List.replicate outdim mn).set lb mx).getD j 0 = if j = lb then mx else mn := by
  have hj' : j < ((List.replicate outdim mn).set lb mx).length := by
    simpa using hj
  rw [List.getD_eq_getElem?_getD, List.getElem?_eq_getElem hj', Option.getD_some,
    List.getElem_set]
  by_cases h : lb = j
  · simp [h]
  · rw [if_neg h, List.getElem_replicate, if_neg (fun hh : j = lb => h hh.symm)]

/-- Claim C5: with in-range labels, `label2vec` appends one vector per
label, each of length `outdim`, holding the last node's maximum output
value at the label index and its minimum value everywhere else; an
out-of-range label makes the call fail at the guard instead of
proceeding. -/
theorem label2vec_spec (ns : List LayerMeta) (t : List Nat) (vec : List Vec) :
    ((∀ lb ∈ t, lb < out_data_size ns) →
      label2vec ns t vec = some (vec ++ t.map (fun lb =>
        (List.replicate (out_data_size ns) (target_value_min ns)).set lb
          (target_value_max ns)))) ∧
    ((∃ lb ∈ t, out_data_size ns ≤ lb) → label2vec ns t vec = none) ∧
    (∀ lb, lb < out_data_size ns →
      ((List.replicate (out_data_size ns) (target_value_min ns)).set lb
          (target_value_max ns)).length = out_data_size ns ∧
      ∀ j, j < out_data_size ns →
        ((List.replicate (out_data_size ns) (target_value_min ns)).set lb
            (target_value_max ns)).getD j 0
          = if j = lb then target_value_max ns else target_value_min ns) := by
  refine ⟨?_, ?_, ?_⟩
  · intro hall
    exact label2vecAux_ok _ _ _ t vec hall
  · intro hex
    exact label2vecAux_err _ _ _ t vec hex
  · intro lb _
    refine ⟨by simp, ?_⟩
    intro j hj
    exact replicate_set_getD _ _ _ _ _ hj

/-- Witness for claim C5 at both label boundaries (`0` and `outdim - 1`)
and at an out-of-range label. -/
theorem label2vec_spec_witness :
    label2vec nsEx [0, 2] []
      = some ([] ++ [0, 2].map (fun lb =>
          (List.replicate (out_data_size nsEx) (target_value_min nsEx)).set lb
            (target_value_max nsEx))) ∧
    label2vec nsEx [3] [] = none :=
  ⟨(label2vec_spec nsEx [0, 2] []).1 (by decide),
   (label2vec_spec nsEx [3] []).2.1 ⟨3, by decide, by decide⟩⟩

/-! ## Claims about `sequential::add` -/

theorem getD_last_of_ne_nil {α : Type} (l : List α) (d : α) :
    l.getD (l.length - 1) d = l.getLastD d := by
  rw [List.getLastD_eq_getLast?, List.getLast?_eq_get?, List.getD_eq_get?]

theorem getD_concat_length {α : Type} (l : List α) (a d : α) :
    (l ++ [a]).getD l.length d = a := by
  rw [List.getD_eq_get?, List.get?_concat_length]
  rfl

/-- Claim C7: adding a layer to a nonempty well-formed sequential chain
wires the previous tail's output port 0 to the new layer's input port 0
and validates the connected shapes; a mismatch fails immediately at add
time with an error carrying the expected (tail output) and actual (new
input) shapes, while a match succeeds and preserves the chain
invariant that every adjacent pair shares an edge and has matching
shapes. -/
theorem sequential_add_spec (st : SeqState) (l : SeqLayer) (hwf : SeqWellFormed st) :
    (st.layers ≠ [] →
      (st.layers.getLastD ⟨[], []⟩).outShape ≠ l.inShape →
      sequential_add st l
        = Except.error (SeqError.shapeMismatch
            (st.layers.getLastD ⟨[], []⟩).outShape l.inShape)) ∧
    ((st.layers = [] ∨ (st.layers.getLastD ⟨[], []⟩).outShape = l.inShape) →
      ∃ st', sequential_add st l = Except.ok st' ∧
        st'.layers = st.layers ++ [l] ∧
        SeqWellFormed st' ∧
        (st.layers ≠ [] →
          st'.inEdge st.layers.length = some (st.layers.length - 1))) := by
  by_cases he : st.layers = []
  · refine ⟨fun h => absurd he h, fun _ => ?_⟩
    refine ⟨{ st with layers := st.layers ++ [l] }, ?_, rfl, ?_, fun h => absurd he h⟩
    · have hlen : (st.layers ++ [l]).length = 1 := by
        rw [he]
        rfl
      simp only [sequential_add, hlen, if_pos rfl, check_connectivity]
      rfl
    · intro i hi
      rw [he] at hi
      simp at hi
  · obtain ⟨m, hm⟩ : ∃ m, st.layers.length = m + 1 := by
      cases hl : st.layers.length with
      | zero => exact absurd (List.length_eq_zero.mp hl) he
      | succ k => exact ⟨k, rfl⟩
    have hlen1 : (st.layers ++ [l]).length = m + 2 := by
      simp [hm]
    have hcond : ¬ ((st.layers ++ [l]).length = 1) := by omega
    have hOut : ((st.layers ++ [l]).getD m ⟨[], []⟩).outShape
        = (st.layers.getLastD ⟨[], []⟩).outShape := by
      rw [List.getD_append _ _ _ m (by omega)]
      have : m = st.layers.length - 1 := by omega
      rw [this, getD_last_of_ne_nil]
    have hIn : ((st.layers ++ [l]).getD (m + 1) ⟨[], []⟩).inShape = l.inShape := by
      have : m + 1 = st.layers.length := by omega
      rw [this, getD_concat_length]
    have hidx : (st.layers ++ [l]).length - 2 = m ∧ (st.layers ++ [l]).length - 1 = m + 1 := by
      omega
    constructor
    · intro _ hne
      simp only [sequential_add, if_neg hcond, hidx.1, hidx.2, connectModel]
      rw [hOut, hIn, if_neg hne]
      rfl
    · intro hmatch
      rcases hmatch with hmatch | hmatch
      · exact absurd hmatch he
      · set st2 : SeqState :=
          { st with
            layers := st.layers ++ [l]
            inEdge := fun i => if i = m + 1 then some m else st.inEdge i } with hst2
        have hconn : check_connectivity st2 = Except.ok () := by
          simp only [check_connectivity]
          rw [if_pos]
          rw [List.all_eq_true]
          intro i hi
          have hi' : i < m + 1 := by
            simpa [hst2, hlen1] using List.mem_range.mp hi
          rw [beq_iff_eq]
          show (if i + 1 = m + 1 then some m else st.inEdge (i + 1)) = some i
          by_cases hcase : i + 1 = m + 1
          · have : i = m := by omega
            rw [if_pos hcase, this]
          · rw [if_neg hcase]
            exact (hwf i (by omega)).1
        refine ⟨st2, ?_, rfl, ?_, ?_⟩
        · simp only [sequential_add, if_neg hcond, hidx.1, hidx.2, connectModel]
          rw [if_pos (by rw [hOut, hIn]; exact hmatch)]
          show (Except.ok st2 >>= fun st3 =>
            check_connectivity st3 >>= fun _ => pure st3) = Except.ok st2
          rw [show (Except.ok st2 >>= fun st3 =>
              check_connectivity st3 >>= fun _ => pure st3)
            = (check_connectivity st2 >>= fun _ => pure st2) from rfl, hconn]
          rfl
        · intro i hi
          have hi' : i + 1 < m + 2 := by
            simpa [hst2, hlen1] using hi
          constructor
          · show (if i + 1 = m + 1 then some m else st.inEdge (i + 1)) = some i
            by_cases hcase : i + 1 = m + 1
            · have : i = m := by omega
              rw [if_pos hcase, this]
            · rw [if_neg hcase]
              exact (hwf i (by omega)).1
          · show ((st.layers ++ [l]).getD i ⟨[], []⟩).outShape
              = ((st.layers ++ [l]).getD (i + 1) ⟨[], []⟩).inShape
            by_cases hcase : i + 1 = m + 1
            · have him : i = m := by omega
              rw [hcase, hIn, him, List.getD_append _ _ _ m (by omega)]
              have : m = st.layers.length - 1 := by omega
              rw [this, getD_last_of_ne_nil]
              exact hmatch
            · have h1 : i < st.layers.length := by omega
              have h2 : i + 1 < st.layers.length := by omega
              rw [List.getD_append _ _ _ i h1, List.getD_append _ _ _ (i + 1) h2]
              exact (hwf i h2).2
        · intro _
          show (if st.layers.length = m + 1 then some m else st.inEdge st.layers.length)
            = some (st.layers.length - 1)
          rw [if_pos hm, hm]
          simp

/-- Witness for claim C7: adding a mismatched layer to a one-layer chain
fails with the two shapes in the error; adding a matching layer succeeds
and wires the new layer to the previous tail. -/
theorem sequential_add_spec_witness :
    sequential_add st0 ⟨[9], [4]⟩
      = Except.error (SeqError.shapeMismatch
          (st0.layers.getLastD ⟨[], []⟩).outShape (⟨[9], [4]⟩ : SeqLayer).inShape) ∧
    ∃ st', sequential_add st0 ⟨[3], [5]⟩ = Except.ok st' ∧
      st'.layers = st0.layers ++ [⟨[3], [5]⟩] ∧
      SeqWellFormed st' ∧
      (st0.layers ≠ [] → st'.inEdge st0.layers.length = some (st0.layers.length - 1)) := by
  have hwf : SeqWellFormed st0 := by
    intro i hi
    exact absurd hi (by simp [st0])
  exact ⟨(sequential_add_spec st0 ⟨[9], [4]⟩ hwf).1 (by decide) (by decide),
    (sequential_add_spec st0 ⟨[3], [5]⟩ hwf).2 (Or.inr (by decide))⟩

/-! ## Claims about the layout transposition -/

theorem get?_eq_some_getD {α : Type} (l : List α) (d : α) (k : Nat) (h : k < l.length) :
    l.get? k = some (l.getD k d) := by
  rw [List.getD_eq_get _ _ h, List.get?_eq_get h]

theorem seqOpt_map_some {ι α : Type} (l : List ι) (f : ι → Option α) (g : ι → α)
    (h : ∀ x ∈ l, f x = some (g x)) :
    seqOpt (l.map f) = some (l.map g) := by
  induction l with
  | nil => rfl
  | cons a rest ih =>
    rw [List.map_cons, List.map_cons]
    show seqOpt (f a :: List.map f rest) = _
    rw [show seqOpt (f a :: List.map f rest)
        = match f a, seqOpt (List.map f rest) with
          | some x, some xs => some (x :: xs)
          | _, _ => none from rfl,
      h a (List.mem_cons_self _ _), ih (fun x hx => h x (List.mem_cons_of_mem _ hx))]

theorem getD_map_range {α : Type} (n : Nat) (f : Nat → α) (k : Nat) (d : α) (h : k < n) :
    ((List.range n).map f).getD k d = f k := by
  rw [List.getD_eq_get?, List.get?_map, List.get?_range h]
  rfl

theorem map_getD_range_self {α : Type} (l : List α) (d : α) :
    (List.range l.length).map (fun k => l.getD k d) = l := by
  induction l with
  | nil => rfl
  | cons a rest ih =>
    rw [List.length_cons, List.range_succ_eq_map, List.map_cons, List.map_map]
    have h2 : List.map ((fun k => (a :: rest).getD k d) ∘ Nat.succ) (List.range rest.length)
        = List.map (fun k => rest.getD k d) (List.range rest.length) :=
      List.map_congr_left (fun x _ => rfl)
    rw [h2, ih]
    rfl

theorem collectChannel_eq (input : List Tensor) (cc c : Nat)
    (hrect : ∀ s ∈ input, s.length = cc) (hc : c < cc) :
    collectChannel input c
      = some ((List.range input.length).map (fun s => (input.getD s []).getD c [])) := by
  unfold collectChannel
  apply seqOpt_map_some
  intro s hs
  have hslt : s < input.length := List.mem_range.mp hs
  rw [get?_eq_some_getD input [] s hslt, Option.some_bind]
  have hmem : input.getD s [] ∈ input := by
    rw [List.getD_eq_get _ _ hslt]
    exact List.get_mem _ _ _
  exact get?_eq_some_getD _ [] c (by rw [hrect _ hmem]; exact hc)

theorem reorder_eq_transpose (input : List Tensor) (cc : Nat) (h0 : input ≠ [])
    (hrect : ∀ s ∈ input, s.length = cc) :
    reorder_for_layerwise_processing input = some (transposeBatch cc input) := by
  obtain ⟨s0, rest, rfl⟩ := List.exists_cons_of_ne_nil h0
  have hs0 : s0.length = cc := hrect s0 (List.mem_cons_self _ _)
  show seqOpt ((List.range s0.length).map (fun c => collectChannel (s0 :: rest) c)) = _
  rw [hs0]
  apply seqOpt_map_some
  intro c hc
  exact collectChannel_eq _ cc c hrect (List.mem_range.mp hc)

theorem transposeBatch_length (cc : Nat) (input : List Tensor) :
    (transposeBatch cc input).length = cc := by
  simp [transposeBatch]

theorem transposeBatch_row (cc : Nat) (input : List Tensor) (c : Nat) (hc : c < cc) :
    (transposeBatch cc input).getD c []
      = (List.range input.length).map (fun s => (input.getD s []).getD c []) := by
  unfold transposeBatch
  exact getD_map_range _ _ _ _ hc

theorem transposeBatch_entry (cc : Nat) (input : List Tensor) (c s : Nat)
    (hc : c < cc) (hs : s < input.length) :
    ((transposeBatch cc input).getD c []).getD s [] = (input.getD s []).getD c [] := by
  rw [transposeBatch_row _ _ _ hc, getD_map_range _ _ _ _ hs]

theorem transposeBatch_transposeBatch (input : List Tensor) (cc : Nat)
    (hrect : ∀ s ∈ input, s.length = cc) :
    transposeBatch input.length (transposeBatch cc input) = input := by
  conv_rhs => rw [← map_getD_range_self input []]
  show (List.range input.length).map
      (fun c => (List.range (transposeBatch cc input).length).map
        (fun s => ((transposeBatch cc input).getD s []).getD c [])) = _
  apply List.map_congr_left
  intro i hi
  have hi' : i < input.length := List.mem_range.mp hi
  rw [transposeBatch_length]
  have hmem : input.getD i [] ∈ input := by
    rw [List.getD_eq_get _ _ hi']
    exact List.get_mem _ _ _
  have hrow := map_getD_range_self (input.getD i []) []
  rw [hrect _ hmem] at hrow
  rw [← hrow]
  apply List.map_congr_left
  intro j hj
  exact transposeBatch_entry cc input j i (List.mem_range.mp hj) hi'

/-- Claim C4 (amended): for a non-empty rectangular batch with at least
one channel, the per-sample to per-channel transposition succeeds,
transposing back reproduces the original batch exactly, no entry is
changed by either transposition, and for a single-channel batch
`normalize_out` is that inverse transposition. -/
theorem reorder_round_trip (input : List Tensor) (cc : Nat) (h0 : input ≠ [])
    (hc : 0 < cc) (hrect : ∀ s ∈ input, s.length = cc) :
    reorder_for_layerwise_processing input = some (transposeBatch cc input) ∧
    reorder_for_layerwise_processing (transposeBatch cc input) = some input ∧
    (∀ c, c < cc → ∀ s, s < input.length →
      ((transposeBatch cc input).getD c []).getD s [] = (input.getD s []).getD c []) ∧
    (cc = 1 → normalize_out (transposeBatch cc input) = some input) := by
  have h1 := reorder_eq_transpose input cc h0 hrect
  have hTne : transposeBatch cc input ≠ [] := by
    intro hT
    have hl := transposeBatch_length cc input
    rw [hT] at hl
    simp at hl
    omega
  have hTrect : ∀ r ∈ transposeBatch cc input, r.length = input.length := by
    intro r hr
    unfold transposeBatch at hr
    obtain ⟨c, _, rfl⟩ := List.mem_map.mp hr
    simp
  have h2 : reorder_for_layerwise_processing (transposeBatch cc input)
      = some (transposeBatch input.length (transposeBatch cc input)) :=
    reorder_eq_transpose _ input.length hTne hTrect
  rw [transposeBatch_transposeBatch input cc hrect] at h2
  refine ⟨h1, h2, ?_, ?_⟩
  · intro c hcc s hs
    exact transposeBatch_entry cc input c s hcc hs
  · intro hcc1
    subst hcc1
    have hT : transposeBatch 1 input
        = [(List.range input.length).map (fun s => (input.getD s []).getD 0 [])] := by
      rfl
    rw [hT]
    show some ((List.range ((List.range input.length).map
        (fun s => (input.getD s []).getD 0 [])).length).map
      (fun sample => [((List.range input.length).map
        (fun s => (input.getD s []).getD 0 [])).getD sample []])) = some input
    congr 1
    rw [List.length_map, List.length_range]
    conv_rhs => rw [← map_getD_range_self input []]
    apply List.map_congr_left
    intro i hi
    have hi' : i < input.length := List.mem_range.mp hi
    rw [getD_map_range _ _ _ _ hi']
    have hmem : input.getD i [] ∈ input := by
      rw [List.getD_eq_get _ _ hi']
      exact List.get_mem _ _ _
    obtain ⟨a, ha⟩ := List.length_eq_one.mp (hrect _ hmem)
    rw [ha]
    rfl

/-- Witness for the amended claim C4 on a concrete two-sample,
one-channel batch. -/
theorem reorder_round_trip_witness :
    reorder_for_layerwise_processing ([[[1]], [[2]]] : List Tensor)
      = some (transposeBatch 1 [[[1]], [[2]]]) ∧
    reorder_for_layerwise_processing (transposeBatch 1 ([[[1]], [[2]]] : List Tensor))
      = some [[[1]], [[2]]] ∧
    (∀ c, c < 1 → ∀ s, s < ([[[1]], [[2]]] : List Tensor).length →
      ((transposeBatch 1 ([[[1]], [[2]]] : List Tensor)).getD c []).getD s []
        = (([[[1]], [[2]]] : List Tensor).getD s []).getD c []) ∧
    (1 = 1 → normalize_out (transposeBatch 1 ([[[1]], [[2]]] : List Tensor))
        = some [[[1]], [[2]]]) :=
  reorder_round_trip [[[1]], [[2]]] 1 (by decide) (by decide) (by decide)

/-- Counterexample to claim C4 as stated: the batch of two samples with
zero channels is non-empty and rectangular, yet its transposition is
the empty list, whose back-transposition has no defined result, so the
round trip cannot reproduce the batch. -/
theorem reorder_round_trip_zero_channels :
    ([[], []] : List Tensor) ≠ [] ∧
    (∀ s ∈ ([[], []] : List Tensor), s.length = 0) ∧
    reorder_for_layerwise_processing ([[], []] : List Tensor) = some [] ∧
    (reorder_for_layerwise_processing ([[], []] : List Tensor)).bind
        reorder_for_layerwise_processing = none :=
  ⟨by decide, by decide, rfl, rfl⟩

/-! ## Claim about the implicit non-emptiness precondition -/

/-- Claim C9: the batch entry points read element 0 unguarded, so an
empty batch has no defined result; for a non-empty rectangular batch
every access in the reorder stays in bounds and the reorder succeeds,
and `graph::forward`'s entry succeeds when additionally the channel
count matches the declared input-layer count. -/
theorem forward_entry_requires_nonempty (k : Nat) :
    reorder_for_layerwise_processing ([] : List Tensor) = none ∧
    graph_forward_entry k [] = none ∧
    graph_backward_entry k [] = none ∧
    (∀ (input : List Tensor) (cc : Nat), input ≠ [] → (∀ s ∈ input, s.length = cc) →
      reorder_for_layerwise_processing input = some (transposeBatch cc input)) ∧
    (∀ (input : List Tensor), input ≠ [] → (∀ s ∈ input, s.length = k) →
      graph_forward_entry k input = some (Except.ok (transposeBatch k input))) := by
  refine ⟨rfl, rfl, rfl, ?_, ?_⟩
  · intro input cc h0 hrect
    exact reorder_eq_transpose input cc h0 hrect
  · intro input h0 hrect
    obtain ⟨s0, rest, rfl⟩ := List.exists_cons_of_ne_nil h0
    have hs0 : s0.length = k := hrect s0 (List.mem_cons_self _ _)
    show (if s0.length = k then _ else _) = _
    rw [if_pos hs0, reorder_eq_transpose (s0 :: rest) k h0 hrect]
    rfl

/-- Witness for claim C9 at a concrete batch. -/
theorem forward_entry_requires_nonempty_witness :
    graph_forward_entry 1 [] = none ∧
    graph_forward_entry 1 ([[[1]], [[2]]] : List Tensor)
      = some (Except.ok (transposeBatch 1 [[[1]], [[2]]])) :=
  ⟨(forward_entry_requires_nonempty 1).2.1,
   (forward_entry_requires_nonempty 1).2.2.2.2 [[[1]], [[2]]] (by decide) (by decide)⟩

/-! ## Lemmas about `find_index` -/

theorem find_index_eq_none_iff (l : List Nat) (t : Nat) :
    find_index l t = none ↔ t ∉ l := by
  induction l with
  | nil => simp [find_index]
  | cons x rest ih =>
    by_cases h : x = t
    · simp [find_index, h]
    · simp only [find_index, if_neg h]
      constructor
      · intro hnone
        have h1 : find_index rest t = none := by
          cases hfe : find_index rest t with
          | none => rfl
          | some j =>
            rw [hfe] at hnone
            simp at hnone
        have h2 : t ∉ rest := ih.mp h1
        simp only [List.mem_cons]
        rintro (rfl | hmem)
        · exact h rfl
        · exact h2 hmem
      · intro hnot
        rw [ih.mpr (fun hm => hnot (List.mem_cons_of_mem _ hm))]
        rfl

theorem find_index_some (l : List Nat) (t : Nat) :
    ∀ i, find_index l t = some i → ∃ h : i < l.length, l.get ⟨i, h⟩ = t := by
  induction l with
  | nil => intro i h; simp [find_index] at h
  | cons x rest ih =>
    intro i h
    by_cases hx : x = t
    · simp only [find_index, if_pos hx, Option.some_inj] at h
      subst h
      exact ⟨Nat.succ_pos _, hx⟩
    · simp only [find_index, if_neg hx] at h
      obtain ⟨j, hj, rfl⟩ := Option.map_eq_some'.mp h
      obtain ⟨hjl, hget⟩ := ih j hj
      exact ⟨Nat.succ_lt_succ hjl, hget⟩

/-! ## Claim about the "invalid connection" error -/

theorem processSuccs_eq_none_iff (g : Graph) (curr : Nat) :
    ∀ (succs stack : List Nat) (removed : Nat → Option (List Bool)),
      (processSuccs g curr succs stack removed = none ↔ ∃ s ∈ succs, curr ∉ g.prev s) := by
  intro succs
  induction succs with
  | nil =>
    intro stack removed
    simp [processSuccs]
  | cons s rest ih =>
    intro stack removed
    cases hfi : find_index (g.prev s) curr with
    | none =>
      simp only [processSuccs, hfi]
      constructor
      · intro _
        exact ⟨s, List.mem_cons_self _ _, (find_index_eq_none_iff _ _).mp hfi⟩
      · intro _
        trivial
    | some idx =>
      simp only [processSuccs, hfi]
      rw [ih]
      constructor
      · rintro ⟨b, hb, hnb⟩
        exact ⟨b, List.mem_cons_of_mem _ hb, hnb⟩
      · rintro ⟨b, hb, hnb⟩
        rcases List.mem_cons.mp hb with rfl | hb
        · obtain ⟨hlt, hget⟩ := find_index_some _ _ _ hfi
          exact absurd (hget ▸ List.get_mem _ _ _) hnb
        · exact ⟨b, hb, hnb⟩

/-- Claim C8: if the node popped by the sorting loop has a successor
whose predecessor list does not contain it, the loop fails with the
"invalid connection" error; conversely, when every successor's
predecessor list contains the node reaching it, that error is never
raised from any loop state. -/
theorem construct_invalid_connection (g : Graph) :
    (∀ (fuel : Nat) (curr : Nat) (rest sorted : List Nat)
        (removed : Nat → Option (List Bool)),
      (∃ s ∈ g.next curr, curr ∉ g.prev s) →
      constructLoop g (fuel + 1) (curr :: rest) sorted removed
        = CResult.invalidConnection) ∧
    ((∀ u v, v ∈ g.next u → u ∈ g.prev v) →
      ∀ (fuel : Nat) (stack sorted : List Nat) (removed : Nat → Option (List Bool)),
        constructLoop g fuel stack sorted removed ≠ CResult.invalidConnection) := by
  constructor
  · intro fuel curr rest sorted removed hbad
    have hnone : processSuccs g curr (g.next curr) rest removed = none :=
      (processSuccs_eq_none_iff g curr _ _ _).mpr hbad
    simp [constructLoop, hnone]
  · intro hcons fuel
    induction fuel with
    | zero =>
      intro stack sorted removed
      simp [constructLoop]
    | succ n ih =>
      intro stack sorted removed
      cases stack with
      | nil => simp [constructLoop]
      | cons curr rest =>
        cases hp : processSuccs g curr (g.next curr) rest removed with
        | none =>
          exfalso
          obtain ⟨s, hs, hns⟩ := (processSuccs_eq_none_iff g curr _ _ _).mp hp
          exact hns (hcons curr s hs)
        | some pr =>
          obtain ⟨stack2, removed2⟩ := pr
          simp only [constructLoop, hp]
          exact ih stack2 (sorted ++ [curr]) removed2

/-- Witness for claim C8: on the corrupted two-node graph the loop
fails with the "invalid connection" error, while on a consistent graph
it never does. -/
theorem construct_invalid_connection_witness :
    constructLoop gBad 1 [0] [] (fun _ => none) = CResult.invalidConnection ∧
    constructLoop gW 5 [0] [] (fun _ => none) ≠ CResult.invalidConnection :=
  ⟨(construct_invalid_connection gBad).1 0 0 [] [] (fun _ => none)
      ⟨1, by decide, by decide⟩,
   (construct_invalid_connection gW).2
      (fun u v h => absurd h (List.not_mem_nil v)) 5 [0] [] (fun _ => none)⟩

/-! ## Invariant lemmas for the topological-sort loop -/

theorem all_id_iff_getD (r : List Bool) :
    (r.all (fun b => b) = true) ↔ ∀ k, k < r.length → r.getD k false = true := by
  rw [List.all_eq_true]
  constructor
  · intro h k hk
    rw [List.getD_eq_get _ _ hk]
    exact h _ (List.get_mem _ _ _)
  · intro h b hb
    obtain ⟨⟨k, hk⟩, rfl⟩ := List.mem_iff_get.mp hb
    rw [← List.getD_eq_get r false hk]
    exact h k hk

theorem bits_update_other (g : Graph) (removed : Nat → Option (List Bool))
    (s v : Nat) (r : List Bool) (h : v ≠ s) :
    bits g (fun x => if x = s then some r else removed x) v = bits g removed v := by
  simp [bits, h]

theorem bits_update_self (g : Graph) (removed : Nat → Option (List Bool))
    (s : Nat) (r : List Bool) :
    bits g (fun x => if x = s then some r else removed x) s = r := by
  simp [bits]

theorem getD_set_self (l : List Bool) (i : Nat) (b : Bool) (h : i < l.length) :
    (l.set i b).getD i false = b := by
  rw [List.getD_eq_getElem?_getD, List.getElem?_set_self h]
  rfl

theorem getD_set_ne (l : List Bool) (i k : Nat) (b : Bool) (h : i ≠ k) :
    (l.set i b).getD k false = l.getD k false := by
  rw [List.getD_eq_getElem?_getD, List.getElem?_set_ne h, ← List.getD_eq_getElem?_getD]

/-- Specification of the successor-processing loop: from a mid-step
state it neither fails nor drops frontier nodes, updates the bits of
exactly the processed edges, pushes exactly the successors whose
predecessor sets are fully sorted, and preserves the duplicate-freeness
of the visited and frontier nodes. -/
theorem processSuccs_spec (g : Graph) (hc : Consistent g) (inputs : List Nat)
    (hi : GoodInputs g inputs) (curr : Nat) (hcn : curr < g.n) (sorted : List Nat)
    (hcns : curr ∉ sorted)
    (hpc : ∀ u ∈ g.prev curr, u ∈ sorted)
    (hcls : ∀ v ∈ sorted, ∀ u ∈ g.prev v, u ∈ sorted) :
    ∀ (succs done stack : List Nat) (removed : Nat → Option (List Bool)),
      g.next curr = done ++ succs →
      BitsLen g removed →
      BitInvMid g removed sorted curr done →
      StackOK g inputs removed stack →
      ((sorted ++ [curr]) ++ stack).Nodup →
      ∃ stackB removedB,
        processSuccs g curr succs stack removed = some (stackB, removedB) ∧
        BitsLen g removedB ∧
        BitInvMid g removedB sorted curr (done ++ succs) ∧
        StackOK g inputs removedB stackB ∧
        ((sorted ++ [curr]) ++ stackB).Nodup ∧
        (∀ x ∈ stack, x ∈ stackB) ∧
        (∀ x ∈ stackB, x ∈ stack ∨ x ∈ succs) ∧
        (∀ s ∈ succs, (∀ u ∈ g.prev s, u ∈ sorted ++ [curr]) → s ∈ stackB) := by
  intro succs
  induction succs with
  | nil =>
    intro done stack removed hnext hlen hmid hstk hnd
    refine ⟨stack, removed, rfl, hlen, by simpa using hmid, hstk, hnd,
      fun x hx => hx, fun x hx => Or.inl hx, fun s hs => absurd hs (List.not_mem_nil s)⟩
  | cons s rest ih =>
    intro done stack removed hnext hlen hmid hstk hnd
    have hsmem : s ∈ g.next curr := by
      rw [hnext]
      exact List.mem_append_right _ (List.mem_cons_self _ _)
    have hsn : s < g.n := ((hc.1 curr hcn).2 s hsmem).1
    have hcps : curr ∈ g.prev s := ((hc.1 curr hcn).2 s hsmem).2
    have hndnext : (g.next curr).Nodup := (hc.1 curr hcn).1
    have hsdone : s ∉ done ∧ s ∉ rest := by
      rw [hnext] at hndnext
      have hmid' := List.nodup_middle.mp hndnext
      rw [List.nodup_cons] at hmid'
      exact ⟨fun hm => hmid'.1 (List.mem_append_left _ hm),
        fun hm => hmid'.1 (List.mem_append_right _ hm)⟩
    obtain ⟨idx, hidx⟩ : ∃ idx, find_index (g.prev s) curr = some idx := by
      cases hfe : find_index (g.prev s) curr with
      | none => exact absurd hcps ((find_index_eq_none_iff _ _).mp hfe)
      | some j => exact ⟨j, rfl⟩
    obtain ⟨hidxlt, hidxget⟩ := find_index_some _ _ _ hidx
    have hidxlt' : idx < (bits g removed s).length := by
      rw [hlen s]
      exact hidxlt
    have hlen2 : BitsLen g
        (fun x => if x = s then some ((bits g removed s).set idx true)
                  else removed x) := by
      intro v
      by_cases hv : v = s
      · subst hv
        rw [bits_update_self, List.length_set]
        exact hlen v
      · rw [bits_update_other _ _ _ _ _ hv]
        exact hlen v
    have hmid2 : BitInvMid g
        (fun x => if x = s then some ((bits g removed s).set idx true)
                  else removed x) sorted curr (done ++ [s]) := by
      intro v hvlt k hk
      by_cases hv : v = s
      · subst hv
        rw [bits_update_self]
        by_cases hki : k = idx
        · subst hki
          rw [getD_set_self _ _ _ hidxlt']
          constructor
          · intro _
            exact Or.inr ⟨hidxget, List.mem_append_right _ (List.mem_cons_self _ _)⟩
          · intro _
            rfl
        · rw [getD_set_ne _ _ _ _ (fun hh => hki hh.symm)]
          have hgetne : (g.prev v).get ⟨k, hk⟩ ≠ curr := by
            intro hEq
            apply hki
            have hfin : (⟨k, hk⟩ : Fin (g.prev v).length) = ⟨idx, hidxlt⟩ :=
              ((hc.2 v hvlt).1.get_inj_iff).mp (hEq.trans hidxget.symm)
            exact congrArg Fin.val hfin
          rw [hmid v hvlt k hk]
          constructor
          · rintro (h | ⟨hEq, _⟩)
            · exact Or.inl h
            · exact absurd hEq hgetne
          · rintro (h | ⟨hEq, _⟩)
            · exact Or.inl h
            · exact absurd hEq hgetne
      · rw [bits_update_other _ _ _ _ _ hv, hmid v hvlt k hk]
        constructor
        · rintro (h | ⟨hEq, hd⟩)
          · exact Or.inl h
          · exact Or.inr ⟨hEq, List.mem_append_left _ hd⟩
        · rintro (h | ⟨hEq, hd⟩)
          · exact Or.inl h
          · rcases List.mem_append.mp hd with hd | hd
            · exact Or.inr ⟨hEq, hd⟩
            · exact absurd (List.mem_singleton.mp hd) hv
    have hpushIff : (((bits g removed s).set idx true).all (fun b => b) = true)
        ↔ ∀ u ∈ g.prev s, u ∈ sorted ++ [curr] := by
      rw [all_id_iff_getD]
      have hrlen : ((bits g removed s).set idx true).length = (g.prev s).length := by
        rw [List.length_set]
        exact hlen s
      constructor
      · intro hall u hu
        obtain ⟨⟨k, hk⟩, rfl⟩ := List.mem_iff_get.mp hu
        have hbit : (bits g
            (fun x => if x = s then some ((bits g removed s).set idx true)
                      else removed x) s).getD k false = true := by
          rw [bits_update_self]
          exact hall k (by rw [hrlen]; exact hk)
        rcases (hmid2 s hsn k hk).mp hbit with h | ⟨hEq, _⟩
        · exact List.mem_append_left _ h
        · rw [hEq]
          exact List.mem_append_right _ (List.mem_cons_self _ _)
      · intro hall k hk
        have hk' : k < (g.prev s).length := by
          rw [← hrlen]
          exact hk
        have hmem2 := hall ((g.prev s).get ⟨k, hk'⟩) (List.get_mem _ _ _)
        have hbit : (bits g
            (fun x => if x = s then some ((bits g removed s).set idx true)
                      else removed x) s).getD k false = true := by
          apply (hmid2 s hsn k hk').mpr
          rcases List.mem_append.mp hmem2 with h | h
          · exact Or.inl h
          · exact Or.inr ⟨List.mem_singleton.mp h,
              List.mem_append_right _ (List.mem_cons_self _ _)⟩
        rw [bits_update_self] at hbit
        exact hbit
    have hnext' : g.next curr = (done ++ [s]) ++ rest := by
      rw [hnext]
      simp
    by_cases hpush : ((bits g removed s).set idx true).all (fun b => b) = true
    · -- the successor is pushed onto the frontier
      have hsnotin : s ∉ (sorted ++ [curr]) ++ stack := by
        intro hsin
        rcases List.mem_append.mp hsin with hsin | hsin
        · rcases List.mem_append.mp hsin with hsin | hsin
          · exact hcns (hcls s hsin curr hcps)
          · have hseq : s = curr := List.mem_singleton.mp hsin
            exact hcns (hpc curr (hseq ▸ hcps))
        · rcases hstk s hsin with hin | hall
          · have hp0 := (hi.2 s hin).2
            rw [hp0] at hcps
            exact absurd hcps (List.not_mem_nil _)
          · have hbit := hall idx hidxlt'
            rcases (hmid s hsn idx hidxlt).mp hbit with h | ⟨_, hd⟩
            · exact hcns (hidxget ▸ h)
            · exact hsdone.1 hd
      have hstk2 : StackOK g inputs
          (fun x => if x = s then some ((bits g removed s).set idx true)
                    else removed x) (s :: stack) := by
        intro v hv
        rcases List.mem_cons.mp hv with rfl | hv
        · right
          intro k hk
          rw [bits_update_self] at hk ⊢
          exact (all_id_iff_getD _).mp hpush k hk
        · rcases hstk v hv with hin | hall
          · exact Or.inl hin
          · right
            have hvs : v ≠ s := fun hh =>
              hsnotin (hh ▸ List.mem_append_right _ hv)
            intro k hk
            rw [bits_update_other _ _ _ _ _ hvs] at hk ⊢
            exact hall k hk
      have hnd2 : ((sorted ++ [curr]) ++ s :: stack).Nodup := by
        rw [List.nodup_middle, List.nodup_cons]
        exact ⟨hsnotin, hnd⟩
      obtain ⟨stackB, removedB, hps, hlenB, hmidB, hstkB, hndB, hsubB, hnewB, hpushB⟩ :=
        ih (done ++ [s]) (s :: stack) _ hnext' hlen2 hmid2 hstk2 hnd2
      refine ⟨stackB, removedB, ?_, hlenB, ?_, hstkB, hndB, ?_, ?_, ?_⟩
      · show processSuccs g curr (s :: rest) stack removed = _
        simp only [processSuccs, hidx]
        rw [if_pos hpush]
        exact hps
      · rw [show done ++ s :: rest = (done ++ [s]) ++ rest from by simp]
        exact hmidB
      · intro x hx
        exact hsubB x (List.mem_cons_of_mem _ hx)
      · intro x hx
        rcases hnewB x hx with h | h
        · rcases List.mem_cons.mp h with rfl | h
          · exact Or.inr (List.mem_cons_self _ _)
          · exact Or.inl h
        · exact Or.inr (List.mem_cons_of_mem _ h)
      · intro b hb hpreds
        rcases List.mem_cons.mp hb with rfl | hb
        · exact hsubB b (List.mem_cons_self _ _)
        · exact hpushB b hb hpreds
    · -- the successor stays off the frontier
      have hstk2 : StackOK g inputs
          (fun x => if x = s then some ((bits g removed s).set idx true)
                    else removed x) stack := by
        intro v hv
        rcases hstk v hv with hin | hall
        · exact Or.inl hin
        · right
          intro k hk
          by_cases hvs : v = s
          · subst hvs
            rw [bits_update_self] at hk ⊢
            by_cases hki : k = idx
            · subst hki
              exact getD_set_self _ _ _ hidxlt'
            · rw [getD_set_ne _ _ _ _ (fun hh => hki hh.symm)]
              apply hall
              rw [List.length_set] at hk
              exact hk
          · rw [bits_update_other _ _ _ _ _ hvs] at hk ⊢
            exact hall k hk
      obtain ⟨stackB, removedB, hps, hlenB, hmidB, hstkB, hndB, hsubB, hnewB, hpushB⟩ :=
        ih (done ++ [s]) stack _ hnext' hlen2 hmid2 hstk2 hnd
      refine ⟨stackB, removedB, ?_, hlenB, ?_, hstkB, hndB, hsubB, ?_, ?_⟩
      · show processSuccs g curr (s :: rest) stack removed = _
        simp only [processSuccs, hidx]
        rw [if_neg hpush]
        exact hps
      · rw [show done ++ s :: rest = (done ++ [s]) ++ rest from by simp]
        exact hmidB
      · intro x hx
        rcases hnewB x hx with h | h
        · exact Or.inl h
        · exact Or.inr (List.mem_cons_of_mem _ h)
      · intro b hb hpreds
        rcases List.mem_cons.mp hb with rfl | hb
        · exact absurd (hpushIff.mpr hpreds) hpush
        · exact hpushB b hb hpreds

theorem reach_lt (g : Graph) (inputs : List Nat) (hc : Consistent g)
    (hi : GoodInputs g inputs) :
    ∀ v, Reach g inputs v → v < g.n := by
  intro v hv
  induction hv with
  | base v hv => exact (hi.2 v hv).1
  | step u v _ he ih => exact ((hc.1 u ih).2 v he).1

theorem reach_cases (g : Graph) (inputs : List Nat) (v : Nat) :
    Reach g inputs v → v ∈ inputs ∨ ∃ u, Reach g inputs u ∧ Edge g u v := by
  intro h
  cases h with
  | base _ h => exact Or.inl h
  | step u _ hu he => exact Or.inr ⟨u, hu, he⟩

theorem ordInv_closure (g : Graph) (sorted : List Nat) (hord : OrdInv g sorted) :
    ∀ v ∈ sorted, ∀ u ∈ g.prev v, u ∈ sorted := by
  intro v hv u hu
  obtain ⟨i, j, _, hgi, _⟩ := hord v hv u hu
  exact List.get?_mem hgi

theorem nodup_length_le (n : Nat) (l : List Nat) (hnd : l.Nodup)
    (hmem : ∀ x ∈ l, x < n) : l.length ≤ n := by
  have h1 : l.toFinset.card = l.length := List.toFinset_card_of_nodup hnd
  have h2 : l.toFinset ⊆ Finset.range n := by
    intro a ha
    exact Finset.mem_range.mpr (hmem a (List.mem_toFinset.mp ha))
  have h3 := Finset.card_le_card h2
  rw [h1, Finset.card_range] at h3
  exact h3

/-- The sorting loop of `graph::construct` preserves its invariant, and
with fuel `n + 1 - sorted.length` it terminates with the `ok` result
and the invariant holding of the final sorted order with an empty
frontier. -/
theorem constructLoop_spec (g : Graph) (inputs : List Nat) (hc : Consistent g)
    (hi : GoodInputs g inputs) :
    ∀ (fuel : Nat) (stack sorted : List Nat) (removed : Nat → Option (List Bool)),
      LoopInv g inputs stack sorted removed →
      g.n + 1 ≤ fuel + sorted.length →
      ∃ out removedB, constructLoop g fuel stack sorted removed = CResult.ok out ∧
        LoopInv g inputs [] out removedB := by
  intro fuel
  induction fuel with
  | zero =>
    intro stack sorted removed hinv hfuel
    exfalso
    obtain ⟨_, _, _, hnd, hmem, _, _, _⟩ := hinv
    have hnd1 : sorted.Nodup := (List.nodup_append.mp hnd).1
    have := nodup_length_le g.n sorted hnd1 hmem
    omega
  | succ fuel ih =>
    intro stack sorted removed hinv hfuel
    obtain ⟨hblen, hbit, hstk, hnd, hmem, hord, hreach, hcmp⟩ := hinv
    cases stack with
    | nil =>
      exact ⟨sorted, removed, rfl,
        hblen, hbit, hstk, hnd, hmem, hord, hreach, hcmp⟩
    | cons curr rest =>
      have hcurrR : Reach g inputs curr :=
        hreach curr (List.mem_append_right _ (List.mem_cons_self _ _))
      have hcn : curr < g.n := reach_lt g inputs hc hi curr hcurrR
      have hcns : curr ∉ sorted := by
        intro hmem'
        exact (List.nodup_append.mp hnd).2.2 hmem' (List.mem_cons_self _ _)
      have hpc : ∀ u ∈ g.prev curr, u ∈ sorted := by
        rcases hstk curr (List.mem_cons_self _ _) with hin | hall
        · intro u hu
          rw [(hi.2 curr hin).2] at hu
          exact absurd hu (List.not_mem_nil _)
        · intro u hu
          obtain ⟨⟨k, hk⟩, rfl⟩ := List.mem_iff_get.mp hu
          exact (hbit curr hcn k hk).mp (hall k (by rw [hblen curr]; exact hk))
      have hcls := ordInv_closure g sorted hord
      have hmid0 : BitInvMid g removed sorted curr [] := by
        intro v hv k hk
        rw [hbit v hv k hk]
        constructor
        · exact fun h => Or.inl h
        · rintro (h | ⟨_, hfalse⟩)
          · exact h
          · exact absurd hfalse (List.not_mem_nil _)
      have hnd' : ((sorted ++ [curr]) ++ rest).Nodup := by
        rw [show (sorted ++ [curr]) ++ rest = sorted ++ curr :: rest from by simp]
        exact hnd
      obtain ⟨stackB, removedB, hps, hlenB, hmidB, hstkB, hndB, hsubB, hnewB, hpushB⟩ :=
        processSuccs_spec g hc inputs hi curr hcn sorted hcns hpc hcls
          (g.next curr) [] rest removed rfl hblen hmid0
          (fun v hv => hstk v (List.mem_cons_of_mem _ hv)) hnd'
      have hbit2 : BitInv g removedB (sorted ++ [curr]) := by
        intro v hv k hk
        rw [hmidB v hv k hk]
        constructor
        · rintro (h | ⟨hEq, _⟩)
          · exact List.mem_append_left _ h
          · rw [hEq]
            exact List.mem_append_right _ (List.mem_cons_self _ _)
        · intro h
          rcases List.mem_append.mp h with h | h
          · exact Or.inl h
          · have hEq : (g.prev v).get ⟨k, hk⟩ = curr := List.mem_singleton.mp h
            refine Or.inr ⟨hEq, ?_⟩
            have hvn : curr ∈ g.prev v := hEq ▸ List.get_mem _ _ _
            exact ((hc.2 v hv).2 curr hvn).2
      have hmem2 : ∀ x ∈ sorted ++ [curr], x < g.n := by
        intro x hx
        rcases List.mem_append.mp hx with h | h
        · exact hmem x h
        · rw [List.mem_singleton.mp h]
          exact hcn
      have hord2 : OrdInv g (sorted ++ [curr]) := by
        intro v hv u hu
        rcases List.mem_append.mp hv with hv | hv
        · obtain ⟨i, j, hij, hgi, hgj⟩ := hord v hv u hu
          obtain ⟨hilt, _⟩ := List.get?_eq_some.mp hgi
          obtain ⟨hjlt, _⟩ := List.get?_eq_some.mp hgj
          exact ⟨i, j, hij, by rw [List.get?_append hilt]; exact hgi,
            by rw [List.get?_append hjlt]; exact hgj⟩
        · have hveq : v = curr := List.mem_singleton.mp hv
          subst hveq
          obtain ⟨i, hgi⟩ := List.mem_iff_get?.mp (hpc u hu)
          obtain ⟨hilt, _⟩ := List.get?_eq_some.mp hgi
          exact ⟨i, sorted.length, hilt,
            by rw [List.get?_append hilt]; exact hgi, List.get?_concat_length _ _⟩
      have hreach2 : ∀ x ∈ (sorted ++ [curr]) ++ stackB, Reach g inputs x := by
        intro x hx
        rcases List.mem_append.mp hx with hx | hx
        · rcases List.mem_append.mp hx with hx | hx
          · exact hreach x (List.mem_append_left _ hx)
          · rw [List.mem_singleton.mp hx]
            exact hcurrR
        · rcases hnewB x hx with hx | hx
          · exact hreach x (List.mem_append_right _ (List.mem_cons_of_mem _ hx))
          · exact Reach.step curr x hcurrR hx
      have hcmp2 : ∀ v, v < g.n → Reach g inputs v →
          (∀ u ∈ g.prev v, u ∈ sorted ++ [curr]) →
          v ∈ sorted ++ [curr] ∨ v ∈ stackB := by
        intro v hvn hvr hpreds
        by_cases hall : ∀ u ∈ g.prev v, u ∈ sorted
        · rcases hcmp v hvn hvr hall with h | h
          · exact Or.inl (List.mem_append_left _ h)
          · rcases List.mem_cons.mp h with rfl | h
            · exact Or.inl (List.mem_append_right _ (List.mem_cons_self _ _))
            · exact Or.inr (hsubB v h)
        · push_neg at hall
          obtain ⟨u0, hu0, hu0n⟩ := hall
          have hu0c : u0 = curr := by
            rcases List.mem_append.mp (hpreds u0 hu0) with h | h
            · exact absurd h hu0n
            · exact List.mem_singleton.mp h
          subst hu0c
          have hvnext : v ∈ g.next u0 := ((hc.2 v hvn).2 u0 hu0).2
          exact Or.inr (hpushB v hvnext hpreds)
      obtain ⟨out, removedC, heq, hinvC⟩ :=
        ih stackB (sorted ++ [curr]) removedB
          ⟨hlenB, hbit2, hstkB, hndB, hmem2, hord2, hreach2, hcmp2⟩
          (by simp only [List.length_append, List.length_cons, List.length_nil]; omega)
      refine ⟨out, removedC, ?_, hinvC⟩
      simp only [constructLoop, hps]
      exact heq

theorem replicate_getD_false (n k : Nat) :
    (List.replicate n false).getD k false = false := by
  by_cases h : k < n
  · rw [List.getD_eq_get _ _ (by simpa using h), List.get_replicate]
  · exact List.getD_eq_default _ _ (by simpa using Nat.le_of_not_lt h)

/-- The loop invariant holds of the initial state of
`graph::construct`'s sorting loop. -/
theorem loopInv_init (g : Graph) (inputs : List Nat) (hc : Consistent g)
    (hi : GoodInputs g inputs) :
    LoopInv g inputs inputs.reverse [] (fun _ => none) := by
  refine ⟨?_, ?_, ?_, ?_, ?_, ?_, ?_, ?_⟩
  · intro v
    simp [bits]
  · intro v hv k hk
    show (bits g (fun _ => none) v).getD k false = true ↔ _
    rw [show bits g (fun _ => none) v = List.replicate (g.prev v).length false from rfl,
      replicate_getD_false]
    simp
  · intro v hv
    exact Or.inl (List.mem_reverse.mp hv)
  · simpa using List.nodup_reverse.mpr hi.1
  · intro x hx
    exact absurd hx (List.not_mem_nil x)
  · intro v hv
    exact absurd hv (List.not_mem_nil v)
  · intro x hx
    rw [List.nil_append] at hx
    exact Reach.base x (List.mem_reverse.mp hx)
  · intro v _ hr hpreds
    have hprev : g.prev v = [] := by
      cases hp : g.prev v with
      | nil => rfl
      | cons a l =>
        exact absurd (hpreds a (by rw [hp]; exact List.mem_cons_self _ _))
          (List.not_mem_nil _)
    rcases reach_cases g inputs v hr with h | ⟨u, hu, he⟩
    · exact Or.inr (List.mem_reverse.mpr h)
    · have hun : u < g.n := reach_lt g inputs hc hi u hu
      have hin : u ∈ g.prev v := ((hc.1 u hun).2 v he).2
      rw [hprev] at hin
      exact absurd hin (List.not_mem_nil _)

/-- With an acyclic consistent graph whose nodes are all reachable,
every node ends up in the final sorted order. -/
theorem construct_complete (g : Graph) (inputs out : List Nat)
    (removedB : Nat → Option (List Bool))
    (hc : Consistent g) (_hi : GoodInputs g inputs) (hac : Acyclic g)
    (hr : ∀ v, v < g.n → Reach g inputs v)
    (hinv : LoopInv g inputs [] out removedB) :
    ∀ v, v < g.n → v ∈ out := by
  obtain ⟨_, _, _, _, _, _, _, hcmp⟩ := hinv
  have hwf : WellFounded (fun a b : Fin g.n => Edge g ↑a ↑b) := by
    have hirr : IsIrrefl (Fin g.n)
        (Relation.TransGen (fun a b : Fin g.n => Edge g ↑a ↑b)) := by
      constructor
      intro a ha
      exact hac ↑a
        (Relation.TransGen.lift (fun x : Fin g.n => (↑x : Nat)) (fun _ _ h => h) ha)
    have htwf := @Finite.wellFounded_of_trans_of_irrefl (Fin g.n) _
      (Relation.TransGen (fun a b : Fin g.n => Edge g ↑a ↑b)) _ hirr
    exact @Subrelation.wf (Fin g.n)
      (Relation.TransGen (fun a b : Fin g.n => Edge g ↑a ↑b))
      (fun a b : Fin g.n => Edge g ↑a ↑b)
      (fun {a b} h => Relation.TransGen.single h) htwf
  intro v hv
  have hall : ∀ a : Fin g.n, (↑a : Nat) ∈ out := by
    intro a
    refine @WellFounded.induction (Fin g.n) _ hwf
      (fun x => (↑x : Nat) ∈ out) a ?_
    intro x ihx
    have hpred : ∀ u ∈ g.prev ↑x, u ∈ out := by
      intro u hu
      have hun : u < g.n := ((hc.2 ↑x x.2).2 u hu).1
      have hedge : Edge g u ↑x := ((hc.2 ↑x x.2).2 u hu).2
      exact ihx ⟨u, hun⟩ hedge
    rcases hcmp ↑x x.2 (hr ↑x x.2) hpred with h | h
    · exact h
    · exact absurd h (List.not_mem_nil _)
  exact hall ⟨v, hv⟩

/-- Claim C1 (amended): for every consistent acyclic graph whose
declared inputs are duplicate-free source nodes and whose nodes are all
reachable from the inputs, `graph::construct` terminates with an order
in which every node appears exactly once and, for every edge, the
predecessor's position is strictly smaller than the successor's. -/
theorem graph_construct_topological (g : Graph) (inputs : List Nat)
    (hc : Consistent g) (hi : GoodInputs g inputs) (hac : Acyclic g)
    (hr : ∀ v, v < g.n → Reach g inputs v) :
    ∃ out, graph_construct g inputs (g.n + 1) = CResult.ok out ∧
      (∀ v, v < g.n → List.count v out = 1) ∧
      (∀ x ∈ out, x < g.n) ∧
      (∀ u v, u < g.n → Edge g u v →
        ∃ i j, i < j ∧ out.get? i = some u ∧ out.get? j = some v) := by
  obtain ⟨out, removedB, heq, hinv⟩ :=
    constructLoop_spec g inputs hc hi (g.n + 1) inputs.reverse [] (fun _ => none)
      (loopInv_init g inputs hc hi) (by simp)
  have hcomp := construct_complete g inputs out removedB hc hi hac hr hinv
  obtain ⟨_, _, _, hnd, hmem, hord, _, _⟩ := hinv
  have hndout : out.Nodup := by simpa using hnd
  refine ⟨out, heq, ?_, hmem, ?_⟩
  · intro v hv
    exact List.count_eq_one_of_mem hndout (hcomp v hv)
  · intro u v hun hedge
    have hvn : v < g.n := ((hc.1 u hun).2 v hedge).1
    have hup : u ∈ g.prev v := ((hc.1 u hun).2 v hedge).2
    exact hord v (hcomp v hvn) u hup

theorem gW_consistent : Consistent gW :=
  ⟨fun _ _ => ⟨List.nodup_nil, fun v hv => absurd hv (List.not_mem_nil v)⟩,
   fun _ _ => ⟨List.nodup_nil, fun u hu => absurd hu (List.not_mem_nil u)⟩⟩

theorem gW_goodInputs : GoodInputs gW [0] :=
  ⟨by decide, fun i hi => by
    rw [List.mem_singleton.mp hi]
    exact ⟨Nat.one_pos, rfl⟩⟩

theorem gW_acyclic : Acyclic gW := by
  intro v h
  cases h with
  | single he => exact absurd he (List.not_mem_nil v)
  | tail _ he => exact absurd he (List.not_mem_nil v)

theorem gW_reach : ∀ v, v < gW.n → Reach gW [0] v := by
  intro v hv
  have hv1 : v < 1 := hv
  have hv0 : v = 0 := by omega
  rw [hv0]
  exact Reach.base 0 (List.mem_cons_self _ _)

/-- Witness for the amended claim C1 on the one-node graph. -/
theorem graph_construct_topological_witness :
    ∃ out, graph_construct gW [0] (gW.n + 1) = CResult.ok out ∧
      (∀ v, v < gW.n → List.count v out = 1) ∧
      (∀ x ∈ out, x < gW.n) ∧
      (∀ u v, u < gW.n → Edge gW u v →
        ∃ i j, i < j ∧ out.get? i = some u ∧ out.get? j = some v) :=
  graph_construct_topological gW [0] gW_consistent gW_goodInputs gW_acyclic gW_reach

theorem gEx_consistent : Consistent gEx := by
  constructor
  · intro u hu
    match u, hu with
    | 0, _ => exact ⟨by decide, fun v hv => by
        rw [show gEx.next 0 = [1] from rfl] at hv
        rw [List.mem_singleton.mp hv]
        exact ⟨by decide, by decide⟩⟩
    | 1, _ => exact ⟨by decide, fun v hv => by
        rw [show gEx.next 1 = [] from rfl] at hv
        exact absurd hv (List.not_mem_nil v)⟩
  · intro v hv
    match v, hv with
    | 0, _ => exact ⟨by decide, fun u hu => by
        rw [show gEx.prev 0 = [] from rfl] at hu
        exact absurd hu (List.not_mem_nil u)⟩
    | 1, _ => exact ⟨by decide, fun u hu => by
        rw [show gEx.prev 1 = [0] from rfl] at hu
        rw [List.mem_singleton.mp hu]
        exact ⟨by decide, by decide⟩⟩

theorem gEx_acyclic : Acyclic gEx := by
  have hstep : ∀ a b, Relation.TransGen (Edge gEx) a b → a = 0 ∧ b = 1 := by
    intro a b h
    induction h with
    | single he =>
      constructor
      · by_contra ha
        have : gEx.next a = [] := by
          show (if a = 0 then [1] else []) = []
          rw [if_neg ha]
        rw [Edge, this] at he
        exact absurd he (List.not_mem_nil _)
      · by_cases ha : a = 0
        · rw [ha] at he
          rw [show Edge gEx 0 = fun b => b ∈ [1] from rfl] at he
          exact List.mem_singleton.mp he
        · have : gEx.next a = [] := by
            show (if a = 0 then [1] else []) = []
            rw [if_neg ha]
          rw [Edge, this] at he
          exact absurd he (List.not_mem_nil _)
    | tail _ he ih =>
      exfalso
      have h1 := ih.2
      rw [h1] at he
      exact absurd he (List.not_mem_nil _)
  intro v h
  have := hstep v v h
  omega

/-- Counterexample to claim C1 as stated: `gEx` is a consistent acyclic
graph all of whose nodes are reachable from the declared inputs
`[0, 1]`, yet the produced execution order `[1, 0, 1]` contains the
reachable node 1 twice (input 1 has a predecessor, so it is popped once
as an input and re-enters the frontier when its incoming edge
resolves). -/
theorem graph_construct_duplicates_node :
    Consistent gEx ∧ Acyclic gEx ∧ (∀ v, v < gEx.n → Reach gEx [0, 1] v) ∧
    graph_construct gEx [0, 1] 4 = CResult.ok [1, 0, 1] ∧
    List.count 1 [1, 0, 1] = 2 := by
  refine ⟨gEx_consistent, gEx_acyclic, ?_, ?_, by decide⟩
  · intro v hv
    match v, hv with
    | 0, _ => exact Reach.base 0 (by decide)
    | 1, _ => exact Reach.base 1 (by decide)
  · rfl

/-! ## Claim about termination and silent omission -/

theorem out_edge_pos (g : Graph) (hc : Consistent g) (out : List Nat)
    (hord : OrdInv g out) (hnd : out.Nodup) :
    ∀ a b, Relation.TransGen (Edge g) a b → a < g.n → b ∈ out →
      a ∈ out ∧ ∃ i j, i < j ∧ out.get? i = some a ∧ out.get? j = some b := by
  have hstep : ∀ a b, Edge g a b → a < g.n → b ∈ out →
      a ∈ out ∧ ∃ i j, i < j ∧ out.get? i = some a ∧ out.get? j = some b := by
    intro a b he han hbo
    have hprev : a ∈ g.prev b := ((hc.1 a han).2 b he).2
    obtain ⟨i, j, hij, hgi, hgj⟩ := hord b hbo a hprev
    exact ⟨List.get?_mem hgi, i, j, hij, hgi, hgj⟩
  have hlt : ∀ a b, Relation.TransGen (Edge g) a b → a < g.n → b < g.n := by
    intro a b hab
    induction hab with
    | single he => intro ha; exact ((hc.1 _ ha).2 _ he).1
    | tail _ he ih => intro ha; exact ((hc.1 _ (ih ha)).2 _ he).1
  intro a b hab
  induction hab with
  | single he => intro ha hb; exact hstep _ _ he ha hb
  | tail hab he ih =>
    intro ha hco
    have hmn := hlt _ _ hab ha
    obtain ⟨hmo, i2, j2, hij2, hgi2, hgj2⟩ := hstep _ _ he hmn hco
    obtain ⟨hao, i1, j1, hij1, hgi1, hgj1⟩ := ih ha hmo
    obtain ⟨hj1lt, _⟩ := List.get?_eq_some.mp hgj1
    have hji : j1 = i2 := List.get?_inj hj1lt hnd (by rw [hgj1, hgi2])
    exact ⟨hao, i1, j2, by omega, hgi1, hgj2⟩

/-- Claim C10 (amended): for every finite consistent graph whose
declared inputs are duplicate-free sources, `graph::construct`
terminates within `n + 1` loop iterations even in the presence of
cycles or unreachable nodes, raises no error, stores an execution
order omitting every node on a cycle and every node unreachable from
the inputs, records the declared input/output lists, and calls
`setup(false)` on the stored nodes. -/
theorem graph_construct_terminates (g : Graph) (inputs outputs : List Nat)
    (st : NetState) (hc : Consistent g) (hi : GoodInputs g inputs) :
    ∃ out, graph_construct g inputs (g.n + 1) = CResult.ok out ∧
      (∀ v ∈ out, Reach g inputs v) ∧
      (∀ v, Relation.TransGen (Edge g) v v → v ∉ out) ∧
      ∃ stB, graph_construct_full g inputs outputs (g.n + 1) st = some stB ∧
        stB.nodes_ = st.nodes_ ++ out ∧
        stB.input_layers_ = inputs ∧
        stB.output_layers_ = outputs ∧
        (∀ v ∈ stB.nodes_, stB.initFlag v = true) := by
  obtain ⟨out, removedB, heq, hinv⟩ :=
    constructLoop_spec g inputs hc hi (g.n + 1) inputs.reverse [] (fun _ => none)
      (loopInv_init g inputs hc hi) (by simp)
  obtain ⟨_, _, _, hnd, hmem, hord, hreach, _⟩ := hinv
  have hndout : out.Nodup := by simpa using hnd
  refine ⟨out, heq, ?_, ?_, ?_⟩
  · intro v hv
    exact hreach v (by simpa using hv)
  · intro v hcyc hvo
    have hvn : v < g.n := hmem v hvo
    obtain ⟨_, i, j, hij, hgi, hgj⟩ :=
      out_edge_pos g hc out hord hndout v v hcyc hvn hvo
    obtain ⟨hilt, _⟩ := List.get?_eq_some.mp hgi
    have : i = j := List.get?_inj hilt hndout (by rw [hgi, hgj])
    omega
  · refine ⟨nodes_setup false
      { st with
        nodes_ := st.nodes_ ++ out
        input_layers_ := inputs
        output_layers_ := outputs }, ?_, rfl, rfl, rfl, ?_⟩
    · unfold graph_construct_full
      rw [show graph_construct g inputs (g.n + 1) = CResult.ok out from heq]
    · intro v hv
      have hv' : v ∈ st.nodes_ ++ out := hv
      show (if v ∈ st.nodes_ ++ out then true else st.initFlag v) = true
      exact if_pos hv'

/-- Witness for the amended claim C10 on the one-node graph. -/
theorem graph_construct_terminates_witness :
    ∃ out, graph_construct gW [0] (gW.n + 1) = CResult.ok out ∧
      (∀ v ∈ out, Reach gW [0] v) ∧
      (∀ v, Relation.TransGen (Edge gW) v v → v ∉ out) ∧
      ∃ stB, graph_construct_full gW [0] [0] (gW.n + 1) stEx = some stB ∧
        stB.nodes_ = stEx.nodes_ ++ out ∧
        stB.input_layers_ = [0] ∧
        stB.output_layers_ = [0] ∧
        (∀ v ∈ stB.nodes_, stB.initFlag v = true) :=
  graph_construct_terminates gW [0] [0] stEx gW_consistent gW_goodInputs

theorem loopG_stuck : ∀ (fuel : Nat) (sorted : List Nat)
    (removed : Nat → Option (List Bool)), removed 0 = some [true] →
    constructLoop loopG fuel [0] sorted removed = CResult.outOfFuel := by
  intro fuel
  induction fuel with
  | zero => intro sorted removed _; rfl
  | succ n ih =>
    intro sorted removed h
    have hb : bits loopG removed 0 = [true] := by
      show (match removed 0 with
        | none => List.replicate (loopG.prev 0).length false
        | some r => r) = [true]
      rw [h]
    have hps : processSuccs loopG 0 (loopG.next 0) [] removed
        = processSuccs loopG 0 []
            (if ((bits loopG removed 0).set 0 true).all (fun b => b) then [0] else [])
            (fun x => if x = 0 then some ((bits loopG removed 0).set 0 true)
                      else removed x) := rfl
    have hps2 : processSuccs loopG 0 (loopG.next 0) [] removed
        = some ([0], fun x => if x = 0 then some [true] else removed x) := by
      rw [hps, hb]
      rfl
    calc constructLoop loopG (n + 1) [0] sorted removed
        = constructLoop loopG n [0] (sorted ++ [0])
            (fun x => if x = 0 then some [true] else removed x) := by
          simp only [constructLoop, hps2]
      _ = CResult.outOfFuel := ih _ _ rfl

/-- Counterexample to claim C10 as stated: on the one-node graph whose
declared input lies on a (self-)cycle, `graph::construct`'s sorting
loop never terminates — no step budget makes it produce a result. -/
theorem graph_construct_diverges_on_input_cycle :
    ¬ ∃ fuel out, graph_construct loopG [0] fuel = CResult.ok out := by
  rintro ⟨fuel, out, hout⟩
  cases fuel with
  | zero =>
    rw [show graph_construct loopG [0] 0 = CResult.outOfFuel from rfl] at hout
    simp at hout
  | succ n =>
    have h0 : graph_construct loopG [0] (n + 1)
        = constructLoop loopG n [0] ([] ++ [0])
            (fun x => if x = 0 then some ((bits loopG (fun _ => none) 0).set 0 true)
                      else (fun _ : Nat => (none : Option (List Bool))) x) := rfl
    rw [h0, loopG_stuck n _ _ rfl] at hout
    simp at hout

end TinyDnn
